import Mathlib

set_option maxRecDepth 40000

/-!
# Verification of the AvrLib incremental stream-matching core and drivers

This development embeds, in Lean, the components of the repository that the
claims concern:

* the declarative incremental stream-matching framework (Ring Buffer contents,
  Chunk Store, Format Descriptors, Scanner) — the Scanner engine and the fifo
  classes themselves are not among the shipped sources (only their unit tests
  are), so those definitions are modelled from the specification, §3–§4.4;
* the DHT sensor driver's bit-reception routine (`src/inc/DHT/DHT.hpp`);
* the pin-change interrupt support (`src/inc/HAL/Atmel/PinChangeInterrupt.hpp`);
* the HC-SR501 motion sensor driver (same header, second part).

Bytes are modelled as natural numbers (the tests use ASCII codes); machine
bytes that can wrap (interrupt counters) are tracked modulo 256.
-/

/-- Modelled from the spec (§3, §4.2 — `ChunkedFifo`, not in the shipped
sources): the Chunk Store wraps a fixed-capacity Ring Buffer; a logical record
is `[length byte][payload]`.  `data` lists the stored bytes in FIFO order,
length bytes included; `capacity` is the backing buffer's capacity. -/
structure ChunkStore where
  capacity : Nat
  data : List Nat
deriving Repr, DecidableEq

/-- `size()` of a Chunk Store: total stored bytes, length bytes included
(spec §4.2). -/
def ChunkStore.size (st : ChunkStore) : Nat := st.data.length

/-- Modelled from the spec (§3 — Format Descriptor elements; the template
classes `Token`/`Scalar` are not in the shipped sources): the elements allowed
inside a Chunk's inner terminator Format.  Every terminator Format in the spec
and in the tests is a single separator `Token` (e.g. `Format<Token<':'>>`), so
the terminator grammar is restricted to the flat elements Token and Scalar. -/
inductive TermElement where
  | token : List Nat → TermElement
  | scalar : Nat → TermElement
deriving Repr, DecidableEq

/-- Modelled from the spec (§3 — Format Descriptor): an element of a Format is
a literal `Token(bytes...)`, a fixed-width `Scalar(width)` extraction, or a
variable-length `Chunk` whose ASCII-decimal length run is followed by an inner
terminator Format. -/
inductive Element where
  | token : List Nat → Element
  | scalar : Nat → Element
  | chunk : List TermElement → Element
deriving Repr, DecidableEq

/-- A Format is an ordered list of elements describing one protocol shape
(spec §3). -/
abbrev Format := List Element

/-- Outcome of matching one literal token against the buffer front:
fully matched (`ok` with the remaining bytes), ran out of buffer while still
agreeing (`short`), or a definite mismatch (`bad`). -/
inductive TokRes where
  | ok : List Nat → TokRes
  | short : TokRes
  | bad : TokRes
deriving Repr, DecidableEq

/-- Match the literal bytes of a Token element against the buffer front
(spec §3: "a literal sequence that must match exactly"). -/
def tokStep : List Nat → List Nat → TokRes
  | [], s => .ok s
  | _ :: _, [] => .short
  | b :: bs, c :: s => if b = c then tokStep bs s else .bad

/-- Split off exactly `n` bytes from the buffer front, or `none` when fewer
than `n` bytes are available. -/
def takeN : Nat → List Nat → Option (List Nat × List Nat)
  | 0, s => some ([], s)
  | _ + 1, [] => none
  | n + 1, c :: s =>
    match takeN n s with
    | some (pre, post) => some (c :: pre, post)
    | none => none

/-- ASCII decimal digit test, `'0'`–`'9'` (spec §4.3). -/
def isDigit (b : Nat) : Bool := 48 ≤ b && b ≤ 57

/-- Split the buffer into its leading run of ASCII digits and the rest
(spec §4.3: the Chunk length is "a run of ASCII decimal digits"). -/
def digitSplit : List Nat → List Nat × List Nat
  | [] => ([], [])
  | c :: s =>
    if isDigit c then (c :: (digitSplit s).1, (digitSplit s).2)
    else ([], c :: s)

/-- Decode an ASCII digit run in base 10 (spec §4.3). -/
def digitsToNat (ds : List Nat) : Nat := ds.foldl (fun a d => a * 10 + (d - 48)) 0

/-- Outcome of matching a Chunk's inner terminator Format: definite mismatch,
out of bytes while still viable, or matched (remaining bytes, accumulated
Scalar target bytes). -/
inductive TRes where
  | fail : TRes
  | needMore : TRes
  | done : List Nat → List Nat → TRes
deriving Repr, DecidableEq

/-- Modelled from the spec (§4.3): match a Chunk's inner terminator Format
against the buffer front.  `tgt` accumulates bytes written to the caller-owned
target by Scalar elements. -/
def matchTerm : List TermElement → List Nat → List Nat → TRes
  | [], s, tgt => .done s tgt
  | .token bs :: rest, s, tgt =>
    match tokStep bs s with
    | .ok r => matchTerm rest r tgt
    | .short => .needMore
    | .bad => .fail
  | .scalar w :: rest, s, tgt =>
    match takeN w s with
    | none => .needMore
    | some (v, r) => matchTerm rest r (tgt ++ v)

/-- Outcome of one branch at one buffer position: eliminated (`fail`), out of
buffer bytes while still a live prefix (`needMore`), or complete
(`done remaining-bytes chunk-store target-bytes`). -/
inductive MRes where
  | fail : MRes
  | needMore : MRes
  | done : List Nat → ChunkStore → List Nat → MRes
deriving Repr, DecidableEq

/-- Modelled from the spec (§4.3, §4.4 steps 2 and 7 — the Scanner's per-branch
format interpreter, `Streams/Scanner.hpp`, not in the shipped sources).
Evaluates one Format against the buffer front:

* `Token` bytes must match exactly; running out of buffer mid-token is
  `needMore`, a differing byte is `fail`;
* `Scalar w` takes `w` bytes verbatim into the target;
* `Chunk term` requires a non-empty ASCII digit run, then the terminator
  Format, then `L` (the decoded length) payload bytes.  If `L + 1` exceeds the
  Chunk Store's remaining capacity the payload bytes are still consumed but
  not retained (`ChunkRejected`, spec §4.2/§7); otherwise the record
  `[L][payload]` is appended to the store. -/
def matchFmt : Format → List Nat → ChunkStore → List Nat → MRes
  | [], s, st, tgt => .done s st tgt
  | .token bs :: rest, s, st, tgt =>
    match tokStep bs s with
    | .ok r => matchFmt rest r st tgt
    | .short => .needMore
    | .bad => .fail
  | .scalar w :: rest, s, st, tgt =>
    match takeN w s with
    | none => .needMore
    | some (v, r) => matchFmt rest r st (tgt ++ v)
  | .chunk term :: rest, s, st, tgt =>
    match digitSplit s with
    | ([], _) => if s.isEmpty then .needMore else .fail
    | (d :: ds, r) =>
      if r.isEmpty then .needMore
      else
        match matchTerm term r tgt with
        | .fail => .fail
        | .needMore => .needMore
        | .done s2 tgt2 =>
          match takeN (digitsToNat (d :: ds)) s2 with
          | none => .needMore
          | some (payload, s3) =>
            if digitsToNat (d :: ds) + 1 ≤ st.capacity - st.size then
              matchFmt rest s3
                { capacity := st.capacity,
                  data := st.data ++ digitsToNat (d :: ds) :: payload } tgt2
            else matchFmt rest s3 st tgt2

/-- Result tag of one `scan` call: a committed branch (by declaration index) or
"no match" (spec §4.4: the Scanner always terminates in one of these). -/
inductive ScanRes where
  | committed : Nat → ScanRes
  | noMatch : ScanRes
deriving Repr, DecidableEq

/-- Full outcome of one `scan` call: result tag, remaining buffer contents,
Chunk Store contents, and the Scalar bytes written to the target. -/
structure ScanOut where
  res : ScanRes
  buf : List Nat
  store : ChunkStore
  target : List Nat
deriving Repr, DecidableEq

/-- The first branch, in declaration order, that completes at the current
buffer position (spec §4.4 step 3), with its index and effects. -/
def firstDone (brs : List Format) (s : List Nat) (st : ChunkStore) (i : Nat) :
    Option (Nat × List Nat × ChunkStore × List Nat) :=
  match brs with
  | [] => none
  | br :: more =>
    match matchFmt br s st [] with
    | .done r st2 t2 => some (i, r, st2, t2)
    | _ => firstDone more s st (i + 1)

/-- Whether the current buffer position is still a live prefix of some branch
(spec §4.4 step 4). -/
def anyLive (brs : List Format) (s : List Nat) (st : ChunkStore) : Bool :=
  match brs with
  | [] => false
  | br :: more =>
    (match matchFmt br s st [] with
     | .needMore => true
     | _ => false) || anyLive more s st

/-- Modelled from the spec (§4.4 — the Scanner engine, `Streams/Scanner.hpp`,
not in the shipped sources).  Advancing through the buffer front to back: if a
branch completes at the current position, commit to the first such branch in
declaration order (steps 3 and 5); otherwise, if some branch is still a live
prefix, stop and retain the bytes from this position on (step 4); otherwise
the leading byte is a confirmed prefix of no branch, discard it and continue
(steps 4 and 6). -/
def scanGo (brs : List Format) (st : ChunkStore) : List Nat → ScanOut
  | [] =>
    match firstDone brs [] st 0 with
    | some (i, r, st2, t2) => ⟨.committed i, r, st2, t2⟩
    | none => ⟨.noMatch, [], st, []⟩
  | c :: t =>
    match firstDone brs (c :: t) st 0 with
    | some (i, r, st2, t2) => ⟨.committed i, r, st2, t2⟩
    | none =>
      if anyLive brs (c :: t) st then ⟨.noMatch, c :: t, st, []⟩
      else scanGo brs st t

/-- Modelled from the spec (§4.4): one `scan` invocation over the not-yet
consumed Ring Buffer bytes `buf` (front first), the candidate branches `brs`
in declaration order, and the destination Chunk Store `st`. -/
def scan (brs : List Format) (st : ChunkStore) (buf : List Nat) : ScanOut :=
  scanGo brs st buf

/-- The branch used throughout the Scanner tests:
`Format<Token<'D','A','T','A'>, Chunk<&T::fifo, Format<Token<':'>>>>`. -/
def fmtDATA : Format := [.token [68, 65, 84, 65], .chunk [.token [58]]]

/-- Every branch of the set is eliminated at this buffer position: the position
is a confirmed prefix of no branch (spec §4.4 steps 4 and 6). -/
def allFail (brs : List Format) (s : List Nat) (st : ChunkStore) : Prop :=
  ∀ br ∈ brs, matchFmt br s st [] = .fail

/-- C2: scanning a buffer containing `"+++DATA5:abcde+++"` against the single
branch `[Token('D','A','T','A'), Chunk(store, Format[Token(':')])]` with
sufficient chunk-store capacity commits a match (the handler's branch index 0
is reported); afterwards the chunk store holds exactly 6 bytes (the 5 payload
bytes `"abcde"` plus 1 length byte) and exactly the 3 trailing bytes `"+++"`
remain in the source buffer. -/
theorem chunk_roundtrip_stores_payload_and_keeps_trailer :
    scan [fmtDATA] ⟨24, []⟩
        [43, 43, 43, 68, 65, 84, 65, 53, 58, 97, 98, 99, 100, 101, 43, 43, 43]
      = ⟨.committed 0, [43, 43, 43], ⟨24, [5, 97, 98, 99, 100, 101]⟩, []⟩
    ∧ (scan [fmtDATA] ⟨24, []⟩
        [43, 43, 43, 68, 65, 84, 65, 53, 58, 97, 98, 99, 100, 101, 43, 43, 43]).store.size = 6
    ∧ (scan [fmtDATA] ⟨24, []⟩
        [43, 43, 43, 68, 65, 84, 65, 53, 58, 97, 98, 99, 100, 101, 43, 43, 43]).buf.length = 3 := by
  decide

/-- C3: a Chunk whose decoded decimal length does not fit the store still
completes the branch, leaves the store empty, and consumes every source byte:
`"DATA240:"` followed by 240 payload bytes against a store of capacity 40
(240 + 1 > 40) commits the match with the store empty and the 248-byte source
buffer fully consumed; with a fitting store, `"DATA10:"` plus 10 payload bytes
yields an 11-byte stored record (10 payload bytes plus the length byte). -/
theorem chunk_reject_consumes_source_and_fitting_chunk_is_stored :
    ([68, 65, 84, 65, 50, 52, 48, 58] ++ List.range 240).length = 248
    ∧ scan [fmtDATA] ⟨40, []⟩ ([68, 65, 84, 65, 50, 52, 48, 58] ++ List.range 240)
      = ⟨.committed 0, [], ⟨40, []⟩, []⟩
    ∧ scan [fmtDATA] ⟨40, []⟩
        [68, 65, 84, 65, 49, 48, 58, 97, 98, 99, 100, 101, 102, 103, 104, 105, 106]
      = ⟨.committed 0, [], ⟨40, [10, 97, 98, 99, 100, 101, 102, 103, 104, 105, 106]⟩, []⟩
    ∧ (scan [fmtDATA] ⟨40, []⟩
        [68, 65, 84, 65, 49, 48, 58, 97, 98, 99, 100, 101, 102, 103, 104, 105, 106]).store.size
      = 11 := by
  decide

/-- C4: on input `"+DATA"`, with branch 0 = `Token("DATA")` declared before
branch 1 = `Token("BOOHOO")` (respectively before `Token("+OOHOO")`, which
matches the leading byte), the Scanner commits to branch 0 — the first branch
in declaration order that completes — and the leading `'+'` is discarded. -/
theorem declaration_order_tie_break_commits_first_branch :
    scan [[.token [68, 65, 84, 65]], [.token [66, 79, 79, 72, 79, 79]]] ⟨24, []⟩
        [43, 68, 65, 84, 65]
      = ⟨.committed 0, [], ⟨24, []⟩, []⟩
    ∧ scan [[.token [68, 65, 84, 65]], [.token [43, 79, 79, 72, 79, 79]]] ⟨24, []⟩
        [43, 68, 65, 84, 65]
      = ⟨.committed 0, [], ⟨24, []⟩, []⟩ := by
  decide

/-- C5: feeding `"+DATA3:abc"` one byte at a time with a `scan` call after
each byte against the single branch
`[Token('D','A','T','A'), Chunk(store, Format[Token(':')])]`: no call before
the final byte commits a match; after each call the buffer holds exactly the
bytes that are still a live prefix of the branch (the leading `'+'` is dropped
at the first call, where it is already a confirmed prefix of no branch); the
final call commits the match, empties the buffer, and stores a 4-byte chunk
(`"abc"` plus the length byte). -/
theorem incremental_delivery_never_false_matches :
    scan [fmtDATA] ⟨24, []⟩ [43] = ⟨.noMatch, [], ⟨24, []⟩, []⟩
    ∧ scan [fmtDATA] ⟨24, []⟩ [68] = ⟨.noMatch, [68], ⟨24, []⟩, []⟩
    ∧ scan [fmtDATA] ⟨24, []⟩ [68, 65] = ⟨.noMatch, [68, 65], ⟨24, []⟩, []⟩
    ∧ scan [fmtDATA] ⟨24, []⟩ [68, 65, 84] = ⟨.noMatch, [68, 65, 84], ⟨24, []⟩, []⟩
    ∧ scan [fmtDATA] ⟨24, []⟩ [68, 65, 84, 65] = ⟨.noMatch, [68, 65, 84, 65], ⟨24, []⟩, []⟩
    ∧ scan [fmtDATA] ⟨24, []⟩ [68, 65, 84, 65, 51]
      = ⟨.noMatch, [68, 65, 84, 65, 51], ⟨24, []⟩, []⟩
    ∧ scan [fmtDATA] ⟨24, []⟩ [68, 65, 84, 65, 51, 58]
      = ⟨.noMatch, [68, 65, 84, 65, 51, 58], ⟨24, []⟩, []⟩
    ∧ scan [fmtDATA] ⟨24, []⟩ [68, 65, 84, 65, 51, 58, 97]
      = ⟨.noMatch, [68, 65, 84, 65, 51, 58, 97], ⟨24, []⟩, []⟩
    ∧ scan [fmtDATA] ⟨24, []⟩ [68, 65, 84, 65, 51, 58, 97, 98]
      = ⟨.noMatch, [68, 65, 84, 65, 51, 58, 97, 98], ⟨24, []⟩, []⟩
    ∧ scan [fmtDATA] ⟨24, []⟩ [68, 65, 84, 65, 51, 58, 97, 98, 99]
      = ⟨.committed 0, [], ⟨24, [3, 97, 98, 99]⟩, []⟩ := by
  decide

/-- C6: scanning `"DATA5_abcde"`, whose byte `'_'` does not match the Chunk
terminator `Token(':')`, never commits a match for the branch (the result is
`noMatch`, so the handler is never invoked) and the Chunk Store remains
empty. -/
theorem separator_mismatch_never_matches_and_store_empty :
    scan [fmtDATA] ⟨24, []⟩ [68, 65, 84, 65, 53, 95, 97, 98, 99, 100, 101]
      = ⟨.noMatch, [], ⟨24, []⟩, []⟩
    ∧ (scan [fmtDATA] ⟨24, []⟩ [68, 65, 84, 65, 53, 95, 97, 98, 99, 100, 101]).store.size
      = 0 := by
  decide

theorem tokStep_append_ok {bs s r : List Nat} (ext : List Nat)
    (h : tokStep bs s = .ok r) : tokStep bs (s ++ ext) = .ok (r ++ ext) := by
  induction bs generalizing s with
  | nil =>
    simp only [tokStep, TokRes.ok.injEq] at h
    subst h
    rfl
  | cons b bs ih =>
    cases s with
    | nil => simp [tokStep] at h
    | cons c s =>
      simp only [tokStep, List.cons_append] at h ⊢
      by_cases hbc : b = c
      · rw [if_pos hbc] at h ⊢
        exact ih h
      · rw [if_neg hbc] at h
        cases h

theorem tokStep_append_bad {bs s : List Nat} (ext : List Nat)
    (h : tokStep bs s = .bad) : tokStep bs (s ++ ext) = .bad := by
  induction bs generalizing s with
  | nil => simp [tokStep] at h
  | cons b bs ih =>
    cases s with
    | nil => simp [tokStep] at h
    | cons c s =>
      simp only [tokStep, List.cons_append] at h ⊢
      by_cases hbc : b = c
      · rw [if_pos hbc] at h ⊢
        exact ih h
      · rw [if_neg hbc]

theorem takeN_append_some {n : Nat} {s v r : List Nat} (ext : List Nat)
    (h : takeN n s = some (v, r)) : takeN n (s ++ ext) = some (v, r ++ ext) := by
  induction n generalizing s v r with
  | zero =>
    simp only [takeN, Option.some.injEq, Prod.mk.injEq] at h
    obtain ⟨hv, hr⟩ := h
    subst hv; subst hr
    rfl
  | succ n ih =>
    cases s with
    | nil => simp [takeN] at h
    | cons c s =>
      have e1 : (c :: s) ++ ext = c :: (s ++ ext) := rfl
      rw [e1]
      simp only [takeN] at h ⊢
      cases htk : takeN n s with
      | none => rw [htk] at h; cases h
      | some pr =>
        obtain ⟨pre, post⟩ := pr
        rw [htk] at h
        simp only [Option.some.injEq, Prod.mk.injEq] at h
        obtain ⟨hv, hr⟩ := h
        subst hv; subst hr
        rw [ih htk]

theorem digitSplit_append {s ds r : List Nat} (ext : List Nat)
    (h : digitSplit s = (ds, r)) (hr : r ≠ []) :
    digitSplit (s ++ ext) = (ds, r ++ ext) := by
  induction s generalizing ds with
  | nil =>
    simp only [digitSplit, Prod.mk.injEq] at h
    exact absurd h.2.symm hr
  | cons c s ih =>
    have e1 : (c :: s) ++ ext = c :: (s ++ ext) := rfl
    rw [e1]
    simp only [digitSplit] at h ⊢
    by_cases hd : isDigit c = true
    · rw [if_pos hd] at h ⊢
      cases hds : digitSplit s with
      | mk ds1 r1 =>
        rw [hds] at h
        simp only [Prod.mk.injEq] at h
        obtain ⟨hds1, hr1⟩ := h
        subst hr1
        rw [ih hds]
        subst hds1
        rfl
    · rw [if_neg hd] at h ⊢
      simp only [Prod.mk.injEq] at h
      obtain ⟨hds1, hr1⟩ := h
      subst hds1; subst hr1
      rfl

theorem matchTerm_append (term : List TermElement) (s tgt ext : List Nat) :
    (∀ r t2, matchTerm term s tgt = .done r t2 →
      matchTerm term (s ++ ext) tgt = .done (r ++ ext) t2)
    ∧ (matchTerm term s tgt = .fail → matchTerm term (s ++ ext) tgt = .fail) := by
  induction term generalizing s tgt with
  | nil =>
    refine ⟨fun r t2 h => ?_, fun h => nomatch h⟩
    simp only [matchTerm, TRes.done.injEq] at h
    obtain ⟨hs, ht⟩ := h
    subst hs; subst ht
    rfl
  | cons el rest ih =>
    cases el with
    | token bs =>
      cases htk : tokStep bs s with
      | ok r0 =>
        have h2 : tokStep bs (s ++ ext) = .ok (r0 ++ ext) := tokStep_append_ok ext htk
        simp only [matchTerm, htk, h2]
        exact ih r0 tgt
      | short =>
        simp only [matchTerm, htk]
        exact ⟨fun r t2 h => (nomatch h), fun h => nomatch h⟩
      | bad =>
        have h2 : tokStep bs (s ++ ext) = .bad := tokStep_append_bad ext htk
        simp only [matchTerm, htk, h2]
        exact ⟨fun r t2 h => (nomatch h), by simp⟩
    | scalar w =>
      cases htk : takeN w s with
      | none =>
        simp only [matchTerm, htk]
        exact ⟨fun r t2 h => (nomatch h), fun h => nomatch h⟩
      | some pr =>
        obtain ⟨v, r0⟩ := pr
        have h2 : takeN w (s ++ ext) = some (v, r0 ++ ext) := takeN_append_some ext htk
        simp only [matchTerm, htk, h2]
        exact ih r0 (tgt ++ v)

theorem matchFmt_append (fmt : Format) (s : List Nat) (st : ChunkStore) (tgt ext : List Nat) :
    (∀ r st2 t2, matchFmt fmt s st tgt = .done r st2 t2 →
      matchFmt fmt (s ++ ext) st tgt = .done (r ++ ext) st2 t2)
    ∧ (matchFmt fmt s st tgt = .fail → matchFmt fmt (s ++ ext) st tgt = .fail) := by
  induction fmt generalizing s st tgt with
  | nil =>
    refine ⟨fun r st2 t2 h => ?_, fun h => nomatch h⟩
    simp only [matchFmt, MRes.done.injEq] at h
    obtain ⟨hs, hst, ht⟩ := h
    subst hs; subst hst; subst ht
    rfl
  | cons el rest ih =>
    cases el with
    | token bs =>
      cases htk : tokStep bs s with
      | ok r0 =>
        have h2 : tokStep bs (s ++ ext) = .ok (r0 ++ ext) := tokStep_append_ok ext htk
        simp only [matchFmt, htk, h2]
        exact ih r0 st tgt
      | short =>
        simp only [matchFmt, htk]
        exact ⟨fun r st2 t2 h => (nomatch h), fun h => nomatch h⟩
      | bad =>
        have h2 : tokStep bs (s ++ ext) = .bad := tokStep_append_bad ext htk
        simp only [matchFmt, htk, h2]
        exact ⟨fun r st2 t2 h => (nomatch h), by simp⟩
    | scalar w =>
      cases htk : takeN w s with
      | none =>
        simp only [matchFmt, htk]
        exact ⟨fun r st2 t2 h => (nomatch h), fun h => nomatch h⟩
      | some pr =>
        obtain ⟨v, r0⟩ := pr
        have h2 : takeN w (s ++ ext) = some (v, r0 ++ ext) := takeN_append_some ext htk
        simp only [matchFmt, htk, h2]
        exact ih r0 st (tgt ++ v)
    | chunk term =>
      cases hds : digitSplit s with
      | mk dsl r0 =>
        cases dsl with
        | nil =>
          cases s with
          | nil =>
            refine ⟨fun r st2 t2 h => ?_, fun h => ?_⟩ <;>
              simp [matchFmt, digitSplit] at h
          | cons c s1 =>
            cases hcb : isDigit c with
            | true =>
              exfalso
              simp [digitSplit, hcb] at hds
            | false =>
              refine ⟨fun r st2 t2 h => ?_, fun h => ?_⟩
              · exfalso
                simp [matchFmt, digitSplit, hcb] at h
              · have e1 : (c :: s1) ++ ext = c :: (s1 ++ ext) := rfl
                rw [e1]
                simp [matchFmt, digitSplit, hcb]
        | cons d ds =>
          cases r0 with
          | nil =>
            refine ⟨fun r st2 t2 h => ?_, fun h => ?_⟩ <;>
              (simp only [matchFmt] at h; rw [hds] at h; simp at h)
          | cons x xs =>
            have hds2 : digitSplit (s ++ ext) = (d :: ds, x :: (xs ++ ext)) :=
              digitSplit_append ext hds (by simp)
            cases hmt : matchTerm term (x :: xs) tgt with
            | fail =>
              have hmt2 : matchTerm term (x :: (xs ++ ext)) tgt = .fail :=
                (matchTerm_append term (x :: xs) tgt ext).2 hmt
              refine ⟨fun r st2 t2 h => ?_, fun h => ?_⟩
              · exfalso
                simp only [matchFmt] at h; rw [hds] at h; simp [hmt] at h
              · simp only [matchFmt]; rw [hds2]; simp [hmt2]
            | needMore =>
              refine ⟨fun r st2 t2 h => ?_, fun h => ?_⟩ <;>
                (simp only [matchFmt] at h; rw [hds] at h; simp [hmt] at h)
            | done s2 tgt2 =>
              have hmt2 : matchTerm term (x :: (xs ++ ext)) tgt = .done (s2 ++ ext) tgt2 :=
                (matchTerm_append term (x :: xs) tgt ext).1 s2 tgt2 hmt
              cases htk : takeN (digitsToNat (d :: ds)) s2 with
              | none =>
                refine ⟨fun r st2 t2 h => ?_, fun h => ?_⟩ <;>
                  (simp only [matchFmt] at h; rw [hds] at h; simp [hmt, htk] at h)
              | some pr =>
                obtain ⟨payload, s3⟩ := pr
                have htk2 : takeN (digitsToNat (d :: ds)) (s2 ++ ext) = some (payload, s3 ++ ext) :=
                  takeN_append_some ext htk
                by_cases hcap : digitsToNat (d :: ds) + 1 ≤ st.capacity - st.size
                · have hred1 : matchFmt (.chunk term :: rest) s st tgt
                      = matchFmt rest s3
                          ⟨st.capacity, st.data ++ digitsToNat (d :: ds) :: payload⟩ tgt2 := by
                    simp only [matchFmt]; rw [hds]; simp [hmt, htk, hcap]
                  have hred2 : matchFmt (.chunk term :: rest) (s ++ ext) st tgt
                      = matchFmt rest (s3 ++ ext)
                          ⟨st.capacity, st.data ++ digitsToNat (d :: ds) :: payload⟩ tgt2 := by
                    simp only [matchFmt]; rw [hds2]; simp [hmt2, htk2, hcap]
                  rw [hred1, hred2]
                  exact ih s3 _ tgt2
                · have hred1 : matchFmt (.chunk term :: rest) s st tgt
                      = matchFmt rest s3 st tgt2 := by
                    simp only [matchFmt]; rw [hds]; simp [hmt, htk, hcap]
                  have hred2 : matchFmt (.chunk term :: rest) (s ++ ext) st tgt
                      = matchFmt rest (s3 ++ ext) st tgt2 := by
                    simp only [matchFmt]; rw [hds2]; simp [hmt2, htk2, hcap]
                  rw [hred1, hred2]
                  exact ih s3 st tgt2

theorem matchFmt_nil_ne_fail (fmt : Format) (st : ChunkStore) (tgt : List Nat) :
    matchFmt fmt [] st tgt ≠ .fail := by
  induction fmt generalizing tgt with
  | nil => simp [matchFmt]
  | cons el rest ih =>
    cases el with
    | token bs =>
      cases bs with
      | nil =>
        simp only [matchFmt, tokStep]
        exact ih tgt
      | cons b bs1 => simp [matchFmt, tokStep]
    | scalar w =>
      cases w with
      | zero =>
        simp only [matchFmt, takeN]
        exact ih (tgt ++ [])
      | succ n => simp [matchFmt, takeN]
    | chunk term => simp [matchFmt, digitSplit]

theorem firstDone_eq_none_of_allFail {brs : List Format} {s : List Nat} {st : ChunkStore}
    (h : allFail brs s st) : ∀ i, firstDone brs s st i = none := by
  induction brs with
  | nil => intro i; rfl
  | cons br more ih =>
    intro i
    have hbr : matchFmt br s st [] = .fail := h br (List.mem_cons_self br more)
    simp only [firstDone, hbr]
    exact ih (fun b hb => h b (List.mem_cons_of_mem br hb)) (i + 1)

theorem anyLive_eq_false_of_allFail {brs : List Format} {s : List Nat} {st : ChunkStore}
    (h : allFail brs s st) : anyLive brs s st = false := by
  induction brs with
  | nil => rfl
  | cons br more ih =>
    have hbr : matchFmt br s st [] = .fail := h br (List.mem_cons_self br more)
    simp only [anyLive, hbr]
    exact ih (fun b hb => h b (List.mem_cons_of_mem br hb))

theorem allFail_of_stuck {brs : List Format} {s : List Nat} {st : ChunkStore} :
    ∀ i, firstDone brs s st i = none → anyLive brs s st = false → allFail brs s st := by
  induction brs with
  | nil =>
    intro i _ _ b hb
    exact absurd hb (List.not_mem_nil b)
  | cons br more ih =>
    intro i h1 h2 b hb
    cases hmr : matchFmt br s st [] with
    | done r st2 t2 =>
      rw [firstDone, hmr] at h1
      cases h1
    | needMore =>
      rw [anyLive, hmr] at h2
      simp at h2
    | fail =>
      rcases List.mem_cons.mp hb with hb1 | hb2
      · rw [hb1]; exact hmr
      · rw [firstDone, hmr] at h1
        rw [anyLive, hmr] at h2
        simp only [Bool.false_or] at h2
        exact ih (i + 1) h1 h2 b hb2

theorem allFail_append {brs : List Format} {s : List Nat} {st : ChunkStore} (ext : List Nat)
    (h : allFail brs s st) : allFail brs (s ++ ext) st :=
  fun br hbr => (matchFmt_append br s st [] ext).2 (h br hbr)

theorem scanGo_cons_of_allFail {brs : List Format} {st : ChunkStore} {c : Nat} {t : List Nat}
    (h : allFail brs (c :: t) st) : scanGo brs st (c :: t) = scanGo brs st t := by
  simp only [scanGo, firstDone_eq_none_of_allFail h 0, anyLive_eq_false_of_allFail h,
    Bool.false_eq_true, if_false]

theorem anyLive_nil_of_firstDone_none {brs : List Format} (hne : brs ≠ []) (st : ChunkStore)
    (h : firstDone brs [] st 0 = none) : anyLive brs [] st = true := by
  cases brs with
  | nil => exact absurd rfl hne
  | cons br more =>
    cases hmr : matchFmt br [] st [] with
    | done r st2 t2 =>
      rw [firstDone, hmr] at h
      cases h
    | fail => exact absurd hmr (matchFmt_nil_ne_fail br st [])
    | needMore => simp [anyLive, hmr]

/-- C1: for every `scan` call over a buffer and a non-empty branch set that
returns without a committed match: the Chunk Store and target are untouched;
the retained buffer is a suffix of the input obtained by dropping some `d`
leading bytes; each of the `d` dropped positions was a confirmed prefix of no
branch (every branch fails there), so every byte that is still a live prefix
of a surviving branch remains in the buffer — the retained suffix is itself a
live prefix of some branch; and, for every later extension of the input, the
scan of the retained bytes plus the new bytes equals the scan of the whole
original input plus the new bytes, so the bytes discarded here are never part
of the match committed by any later `scan` call made after more bytes are
appended. -/
theorem scan_noMatch_keeps_live_prefix_and_is_safe (brs : List Format) (st : ChunkStore)
    (buf : List Nat) (hne : brs ≠ []) (h : (scan brs st buf).res = .noMatch) :
    (scan brs st buf).store = st ∧ (scan brs st buf).target = [] ∧
    ∃ d, d ≤ buf.length ∧ (scan brs st buf).buf = List.drop d buf ∧
      (∀ k, k < d → allFail brs (List.drop k buf) st) ∧
      anyLive brs ((scan brs st buf).buf) st = true ∧
      ∀ ext, scan brs st (buf ++ ext) = scan brs st ((scan brs st buf).buf ++ ext) := by
  revert h
  induction buf with
  | nil =>
    intro h
    cases hfd : firstDone brs [] st 0 with
    | some pr =>
      exfalso
      obtain ⟨i, r, st2, t2⟩ := pr
      simp [scan, scanGo, hfd] at h
    | none =>
      have hout : scan brs st [] = ⟨.noMatch, [], st, []⟩ := by
        simp [scan, scanGo, hfd]
      rw [hout]
      exact ⟨rfl, rfl, 0, Nat.zero_le _, rfl, fun k hk => absurd hk (Nat.not_lt_zero k),
        anyLive_nil_of_firstDone_none hne st hfd, fun ext => rfl⟩
  | cons c t ih =>
    intro h
    cases hfd : firstDone brs (c :: t) st 0 with
    | some pr =>
      exfalso
      obtain ⟨i, r, st2, t2⟩ := pr
      simp [scan, scanGo, hfd] at h
    | none =>
      cases hal : anyLive brs (c :: t) st with
      | true =>
        have hout : scan brs st (c :: t) = ⟨.noMatch, c :: t, st, []⟩ := by
          simp [scan, scanGo, hfd, hal]
        rw [hout]
        exact ⟨rfl, rfl, 0, Nat.zero_le _, rfl, fun k hk => absurd hk (Nat.not_lt_zero k),
          hal, fun ext => rfl⟩
      | false =>
        have hAF : allFail brs (c :: t) st := allFail_of_stuck 0 hfd hal
        have hscan : scan brs st (c :: t) = scan brs st t := scanGo_cons_of_allFail hAF
        rw [hscan] at h ⊢
        obtain ⟨hst, htgt, d, hdlen, hbuf, hks, hlive, hext⟩ := ih h
        refine ⟨hst, htgt, d + 1, ?_, ?_, ?_, hlive, ?_⟩
        · simpa using Nat.succ_le_succ hdlen
        · rw [List.drop_succ_cons]
          exact hbuf
        · intro k hk
          cases k with
          | zero => exact hAF
          | succ j =>
            rw [List.drop_succ_cons]
            exact hks j (Nat.lt_of_succ_lt_succ hk)
        · intro ext
          have hAFe : allFail brs (c :: (t ++ ext)) st := allFail_append ext hAF
          have hstepe : scan brs st (c :: (t ++ ext)) = scan brs st (t ++ ext) :=
            scanGo_cons_of_allFail hAFe
          calc scan brs st ((c :: t) ++ ext) = scan brs st (t ++ ext) := hstepe
            _ = scan brs st ((scan brs st t).buf ++ ext) := hext ext

/-- Witness for C1 at a concrete input: one branch `Token("DATA")`, buffer
`"+DA"`; the call returns no match, drops exactly the dead leading `'+'`, and
retains the live prefix `"DA"`. -/
theorem scan_noMatch_keeps_live_prefix_and_is_safe_witness :
    (([[Element.token [68, 65, 84, 65]]] : List Format) ≠ []
      ∧ (scan [[Element.token [68, 65, 84, 65]]] ⟨24, []⟩ [43, 68, 65]).res = .noMatch)
    ∧ ((scan [[Element.token [68, 65, 84, 65]]] ⟨24, []⟩ [43, 68, 65]).store = ⟨24, []⟩
      ∧ (scan [[Element.token [68, 65, 84, 65]]] ⟨24, []⟩ [43, 68, 65]).target = []
      ∧ ∃ d, d ≤ ([43, 68, 65] : List Nat).length
        ∧ (scan [[Element.token [68, 65, 84, 65]]] ⟨24, []⟩ [43, 68, 65]).buf
          = List.drop d [43, 68, 65]
        ∧ (∀ k, k < d →
            allFail [[Element.token [68, 65, 84, 65]]] (List.drop k [43, 68, 65]) ⟨24, []⟩)
        ∧ anyLive [[Element.token [68, 65, 84, 65]]]
            ((scan [[Element.token [68, 65, 84, 65]]] ⟨24, []⟩ [43, 68, 65]).buf) ⟨24, []⟩ = true
        ∧ ∀ ext, scan [[Element.token [68, 65, 84, 65]]] ⟨24, []⟩ ([43, 68, 65] ++ ext)
            = scan [[Element.token [68, 65, 84, 65]]] ⟨24, []⟩
                ((scan [[Element.token [68, 65, 84, 65]]] ⟨24, []⟩ [43, 68, 65]).buf ++ ext)) :=
  ⟨⟨by decide, by decide⟩,
    scan_noMatch_keeps_live_prefix_and_is_safe _ _ _ (by decide) (by decide)⟩

/-- C7: if a `scan` call returns the inconclusive "no match, partial data
retained" result, an immediately following `scan` call on the resulting buffer
and store, with the same branches and no bytes appended in between, returns
the identical outcome — in particular the same result tag and an unchanged
buffer size. -/
theorem scan_no_progress_idempotent (brs : List Format) (st : ChunkStore) (buf : List Nat)
    (h : (scan brs st buf).res = .noMatch) :
    scan brs ((scan brs st buf).store) ((scan brs st buf).buf) = scan brs st buf := by
  revert h
  induction buf with
  | nil =>
    intro h
    cases hfd : firstDone brs [] st 0 with
    | some pr =>
      exfalso
      obtain ⟨i, r, st2, t2⟩ := pr
      simp [scan, scanGo, hfd] at h
    | none =>
      have hout : scan brs st [] = ⟨.noMatch, [], st, []⟩ := by
        simp [scan, scanGo, hfd]
      rw [hout]
      exact hout
  | cons c t ih =>
    intro h
    cases hfd : firstDone brs (c :: t) st 0 with
    | some pr =>
      exfalso
      obtain ⟨i, r, st2, t2⟩ := pr
      simp [scan, scanGo, hfd] at h
    | none =>
      cases hal : anyLive brs (c :: t) st with
      | true =>
        have hout : scan brs st (c :: t) = ⟨.noMatch, c :: t, st, []⟩ := by
          simp [scan, scanGo, hfd, hal]
        rw [hout]
        exact hout
      | false =>
        have hAF : allFail brs (c :: t) st := allFail_of_stuck 0 hfd hal
        have hscan : scan brs st (c :: t) = scan brs st t := scanGo_cons_of_allFail hAF
        rw [hscan] at h ⊢
        exact ih h

/-- Witness for C7 at a concrete input: branch `fmtDATA`, buffer `"DA"`; the
call is inconclusive and an immediate re-scan returns the identical outcome. -/
theorem scan_no_progress_idempotent_witness :
    (scan [fmtDATA] ⟨24, []⟩ [68, 65]).res = .noMatch
    ∧ scan [fmtDATA] ((scan [fmtDATA] ⟨24, []⟩ [68, 65]).store)
        ((scan [fmtDATA] ⟨24, []⟩ [68, 65]).buf)
      = scan [fmtDATA] ⟨24, []⟩ [68, 65] :=
  ⟨by decide, scan_no_progress_idempotent _ _ _ (by decide)⟩

/-- `DHTState` from `src/inc/DHT/DHT.hpp` (enum values 0–6 in declaration
order, as used by `uint8_t(state)` failure codes). -/
inductive DHTState where
  | IDLE
  | BOOTING
  | SIGNALING
  | SYNC_LOW
  | SYNC_HIGH
  | RECEIVING_LOW
  | RECEIVING_HIGH
deriving Repr, DecidableEq

/-- The numeric value of a `DHTState`, `uint8_t(state)` in the source. -/
def DHTState.code : DHTState → Nat
  | .IDLE => 0
  | .BOOTING => 1
  | .SIGNALING => 2
  | .SYNC_LOW => 3
  | .SYNC_HIGH => 4
  | .RECEIVING_LOW => 5
  | .RECEIVING_HIGH => 6

/-- The mutable fields of `DHT::Impl::DHT` relevant to pulse reception
(`src/inc/DHT/DHT.hpp` lines 26–34).  The C++ array `uint8_t data[4]` is
modelled as a total function `Nat → Nat` because `receive` writes `data[pos]`
unconditionally at whatever index `pos` holds; the theorems below concern the
indices written. -/
structure DHT where
  state : DHTState
  bit : Nat
  pos : Nat
  data : Nat → Nat
  seenHigh : Bool
  lastFailure : Nat

/-- `DHT::reset` (`DHT.hpp` lines 56–65): record the failure code, return to
`IDLE`, and restart bit/byte positions.  (The pin reconfiguration and
`counter.pause()` are external effects outside this state.) -/
def DHT.reset (failure : Nat) (s : DHT) : DHT :=
  { s with lastFailure := failure, state := .IDLE, bit := 7, pos := 0, seenHigh := false }

/-- `DHT::receive` (`DHT.hpp` lines 67–85): set or clear bit `bit` of
`data[pos]`, advance the bit cursor (and `pos` after bit 0), reset once
`pos >= 5`, otherwise continue in `RECEIVING_LOW`.  Returns the updated state
together with the index of the `data` slot that was written. -/
def DHT.receive (value : Bool) (s : DHT) : DHT × Nat :=
  let idx := s.pos
  let d : Nat → Nat := fun i =>
    if i = idx then
      if value then s.data idx ||| (1 <<< s.bit)
      else s.data idx &&& (255 ^^^ (1 <<< s.bit))
    else s.data i
  let s1 : DHT :=
    if s.bit > 0 then { s with data := d, bit := s.bit - 1 }
    else { s with data := d, bit := 7, pos := s.pos + 1 }
  if s1.pos ≥ 5 then (DHT.reset 0 s1, idx)
  else ({ s1 with state := .RECEIVING_LOW }, idx)

/-- A pulse delivered by the pulse counter: possibly empty, with a level and a
duration (modelled in microseconds; the source compares against `_us`
literals). -/
structure DPulse where
  empty : Bool
  high : Bool
  duration : Nat
deriving Repr, DecidableEq

/-- One `DHT::loop()` iteration upon receiving one pulse, covering the
pulse-driven states (`sync_low`, `sync_high`, `receiving_low`,
`receiving_high` with the `expectPulse` empty-pulse reset, `DHT.hpp` lines
102–156 and 168–178).  `IDLE`/`BOOTING`/`SIGNALING` are timeout-driven and
consume no pulse.  Returns the new state and the `data` index written when a
bit was received. -/
def DHT.step (p : DPulse) (s : DHT) : DHT × Option Nat :=
  match s.state with
  | .SYNC_LOW =>
    if p.empty = true then (DHT.reset s.state.code s, none)
    else if p.high = false ∧ 60 < p.duration ∧ p.duration < 120 then
      ({ s with state := .SYNC_HIGH }, none)
    else (s, none)
  | .SYNC_HIGH =>
    if p.empty = true then (DHT.reset s.state.code s, none)
    else if p.high = true ∧ 60 < p.duration ∧ p.duration < 120 then
      ({ s with state := .RECEIVING_LOW }, none)
    else (s, none)
  | .RECEIVING_LOW =>
    if p.empty = true then (DHT.reset s.state.code s, none)
    else if p.high = false then
      (if 30 < p.duration ∧ p.duration < 80 then ({ s with state := .RECEIVING_HIGH }, none)
       else (DHT.reset (p.duration % 256) s, none))
    else (DHT.reset 43 s, none)
  | .RECEIVING_HIGH =>
    if p.empty = true then (DHT.reset s.state.code s, none)
    else if p.high = true then
      (if p.duration < 50 then
        ((DHT.receive false s).1, some (DHT.receive false s).2)
       else ((DHT.receive true s).1, some (DHT.receive true s).2))
    else (DHT.reset 44 s, none)
  | _ => (s, none)

/-- Run `DHT.step` over a sequence of pulses, collecting the indices of all
writes to the `data` array performed by `DHT::receive`. -/
def DHT.run : List DPulse → DHT → DHT × List Nat
  | [], s => (s, [])
  | p :: ps, s =>
    ((DHT.run ps (DHT.step p s).1).1,
      (DHT.step p s).2.toList ++ (DHT.run ps (DHT.step p s).1).2)

/-- The driver state right after `signaling()` hands over to the pulse
counter: `SYNC_LOW`, `bit = 7`, `pos = 0`, zeroed data. -/
def dhtStart : DHT :=
  { state := .SYNC_LOW, bit := 7, pos := 0, data := fun _ => 0,
    seenHigh := false, lastFailure := 0 }

/-- One valid data-bit cell: a low pulse of 50 µs (30 < 50 < 80) followed by a
high pulse of 80 µs (≥ 50 µs, read as bit 1). -/
def dhtBitCell : List DPulse := [⟨false, false, 50⟩, ⟨false, true, 80⟩]

/-- A physically plausible pulse train: sync low + sync high (both 80 µs,
within 60–120), then 33 valid data-bit cells. -/
def dhtBadPulses : List DPulse :=
  ⟨false, false, 80⟩ :: ⟨false, true, 80⟩ :: (List.replicate 33 dhtBitCell).flatten

/-- C8: `uint8_t data[4]` has valid indices 0–3, but the guard in
`DHT::receive` only resets once `pos >= 5`.  After the 32 bits that fill
`data[0]`–`data[3]`, `pos` is 4 and no reset occurs, so the 33rd received bit
writes `data[4]`, outside the 4-byte array: running the receive state machine
on a sync preamble followed by 33 valid data bits yields exactly the write
index sequence 0×8, 1×8, 2×8, 3×8 and then a write at index 4. -/
theorem dht_receive_writes_index_four :
    (DHT.run dhtBadPulses dhtStart).2
      = List.replicate 8 0 ++ List.replicate 8 1 ++ List.replicate 8 2
        ++ List.replicate 8 3 ++ [4]
    ∧ ((DHT.run dhtBadPulses dhtStart).2.contains 4) = true := by
  constructor
  · rfl
  · rfl

/-- The static state of `PinChangeSupport<pcintInfo, bitmask>`
(`src/inc/HAL/Atmel/PinChangeInterrupt.hpp` lines 15–17 and 44): the pin
register value saved at the previous invocation, the configured rising and
directional masks, and the interrupt counter `ints` (a `uint8_t`, tracked
modulo 256). -/
structure PCState where
  last : Nat
  rising : Nat
  directional : Nat
  ints : Nat
deriving Repr, DecidableEq

namespace PinChangeSupport

/-- `PinChangeSupport::shouldInvoke` (`PinChangeInterrupt.hpp` lines 19–24):
no bit selected by `bitmask` changed — do not invoke; no directional mode for
the mask — invoke; otherwise invoke exactly when the masked pin value equals
the configured rising mask. -/
def shouldInvoke (bitmask : Nat) (st : PCState) (now : Nat) : Bool :=
  let changed := now ^^^ st.last
  if changed &&& bitmask = 0 then false
  else if st.directional &&& bitmask = 0 then true
  else (now &&& bitmask) == (st.rising &&& bitmask)

/-- `PinChangeSupport::wrap` (`PinChangeInterrupt.hpp` lines 46–56):
increment `ints`, read the pin register (`now`), invoke the wrapped body iff
`shouldInvoke(now)`, then save `last = now`.  Returns whether the body was
invoked together with the updated state. -/
def wrap (bitmask : Nat) (st : PCState) (now : Nat) : Bool × PCState :=
  let st1 : PCState := { st with ints := (st.ints + 1) % 256 }
  (shouldInvoke bitmask st1 now, { st1 with last := now })

end PinChangeSupport

/-- C9: `PinChangeSupport::wrap` invokes the wrapped handler body if and only
if at least one bit selected by `bitmask` differs from the value saved at the
previous invocation and, when directional mode is configured for that mask,
the current masked pin value equals the configured rising mask; in every case
`wrap` then updates the saved value `last` to the current pin-register value
and increments the interrupt counter, leaving the configuration masks
unchanged. -/
theorem pinchange_wrap_invokes_iff_masked_change (bitmask : Nat) (st : PCState) (now : Nat) :
    ((PinChangeSupport.wrap bitmask st now).1 = true ↔
      ((now ^^^ st.last) &&& bitmask ≠ 0 ∧
        (st.directional &&& bitmask = 0 ∨ now &&& bitmask = st.rising &&& bitmask)))
    ∧ (PinChangeSupport.wrap bitmask st now).2.last = now
    ∧ (PinChangeSupport.wrap bitmask st now).2.ints = (st.ints + 1) % 256
    ∧ (PinChangeSupport.wrap bitmask st now).2.rising = st.rising
    ∧ (PinChangeSupport.wrap bitmask st now).2.directional = st.directional := by
  refine ⟨?_, rfl, rfl, rfl, rfl⟩
  simp only [PinChangeSupport.wrap, PinChangeSupport.shouldInvoke]
  by_cases h1 : (now ^^^ st.last) &&& bitmask = 0
  · simp [h1]
  · by_cases h2 : st.directional &&& bitmask = 0
    · simp [h1, h2]
    · simp [h1, h2]

/-- `HCSR501State` from `src/inc/HAL/Atmel/PinChangeInterrupt.hpp` (second
part, the HC-SR501 driver). -/
inductive HCSR501State where
  | OFF
  | INITIALIZING
  | READY
  | DETECTED
  | SLEEPING
deriving Repr, DecidableEq

/-- The mutable state of `PIR::Impl::HCSR501` relevant to motion detection:
the driver state, the sleep-delay deadline (`some d` when a timeout of `d` is
scheduled), the interrupt counter `ints` (a `uint8_t`, modulo 256), and the
externally visible pin-interrupt and power-pin settings. -/
structure HCSR501 where
  state : HCSR501State
  timeoutScheduled : Option Nat
  ints : Nat
  pinInterruptOn : Bool
  powerHigh : Bool
deriving Repr, DecidableEq

/-- `HCSR501::onPinRising` (`PinChangeInterrupt.hpp`, HC-SR501 part, lines
290–298): count the interrupt; if the driver is `READY`, move to `DETECTED`,
switch the pin interrupt off and drop the module's power. -/
def HCSR501.onPinRising (s : HCSR501) : HCSR501 :=
  let s1 : HCSR501 := { s with ints := (s.ints + 1) % 256 }
  if s1.state = .READY then
    { s1 with state := .DETECTED, pinInterruptOn := false, powerHigh := false }
  else s1

/-- `HCSR501::isMotionDetected` (`PinChangeInterrupt.hpp`, HC-SR501 part,
lines 357–368): inside an atomic scope, if the state is `DETECTED`, move to
`SLEEPING`, schedule the configured sleep delay and report `true`; otherwise
report `false` and change nothing. -/
def HCSR501.isMotionDetected (delay : Nat) (s : HCSR501) : Bool × HCSR501 :=
  if s.state = .DETECTED then
    (true, { s with state := .SLEEPING, timeoutScheduled := some delay })
  else (false, s)

/-- C10: `HCSR501::isMotionDetected` returns `true` iff the sensor state is
`DETECTED` at the moment of the call; when it returns `true` it transitions
the state to `SLEEPING` and schedules the configured sleep-delay timeout, and
when it returns `false` it leaves the entire state — including the timeout —
unchanged (the counter, pin and power fields are never touched). -/
theorem hcsr501_isMotionDetected_iff_detected (delay : Nat) (s : HCSR501) :
    ((HCSR501.isMotionDetected delay s).1 = true ↔ s.state = .DETECTED)
    ∧ (HCSR501.isMotionDetected delay s).2.state
      = (if s.state = .DETECTED then .SLEEPING else s.state)
    ∧ (HCSR501.isMotionDetected delay s).2.timeoutScheduled
      = (if s.state = .DETECTED then some delay else s.timeoutScheduled)
    ∧ ((HCSR501.isMotionDetected delay s).1 = false ↔
        (HCSR501.isMotionDetected delay s).2 = s)
    ∧ (HCSR501.isMotionDetected delay s).2.ints = s.ints
    ∧ (HCSR501.isMotionDetected delay s).2.pinInterruptOn = s.pinInterruptOn
    ∧ (HCSR501.isMotionDetected delay s).2.powerHigh = s.powerHigh := by
  by_cases h : s.state = .DETECTED
  · refine ⟨by simp [HCSR501.isMotionDetected, h], by simp [HCSR501.isMotionDetected, h],
      by simp [HCSR501.isMotionDetected, h], ?_, by simp [HCSR501.isMotionDetected, h],
      by simp [HCSR501.isMotionDetected, h], by simp [HCSR501.isMotionDetected, h]⟩
    constructor
    · intro hfalse
      exfalso
      simp [HCSR501.isMotionDetected, h] at hfalse
    · intro heq
      exfalso
      have hst : (HCSR501.isMotionDetected delay s).2.state = s.state := by rw [heq]
      simp [HCSR501.isMotionDetected, h] at hst
  · simp [HCSR501.isMotionDetected, h]
